import Mathlib

/-!
onos-cli: label-filter compiler (`pkg/topo/filters.go`) and sparse node
update (`pkg/ransim/nodes.go`)

A shallow embedding of the two Go files.

* Go strings are modelled as lists of Unicode code points (`Str`), i.e. the
  inputs are taken to be valid UTF-8.  On valid UTF-8 the byte-level
  substring search of `strings.Index` / `strings.Split` agrees with the
  code-point-level search used here.
* A Go run-time panic (index out of range) is modelled by the error side of
  `Except Panic`.
* The functions of the Go standard library that the code calls
  (`strings.Index`, `strings.Contains`, `strings.Split`,
  `strings.TrimSpace`, `unicode.IsSpace`) are modelled after the library.
-/

namespace OnosCli

/-- A Go string, as its list of code points. -/
abbrev Str := List Char

/-- A Go run-time panic. -/
inductive Panic where
  /-- `panic: runtime error: index out of range [idx] with length len` -/
  | indexOutOfRange (idx len : Nat)
  deriving DecidableEq, Repr

/-! ## Go standard library -/

/-- `strings.HasPrefix(s, pre)`. -/
def HasPrefix : Str → Str → Bool
  | _, [] => true
  | [], _ :: _ => false
  | c :: s, d :: pre => c == d && HasPrefix s pre

/-- `strings.Index(s, substr)`: the index of the first instance of `substr`
in `s`, `none` (Go: `-1`) when there is none. -/
def Index : Str → Str → Option Nat
  | [], substr => if HasPrefix [] substr then some 0 else none
  | c :: s, substr =>
    if HasPrefix (c :: s) substr then some 0 else (Index s substr).map (· + 1)

/-- `strings.Contains(s, substr)`, which is `Index(s, substr) >= 0`. -/
def Contains (s substr : Str) : Bool := (Index s substr).isSome

/-- The loop of `strings.genSplit(s, sep, 0, n)` for a non-empty `sep`: cut
at the first instance of `sep`, continue behind it, and close with the
remainder.  The first argument bounds the number of cuts. -/
def genSplit : Nat → Str → Str → List Str
  | 0, s, _ => [s]
  | n + 1, s, sep =>
    match Index s sep with
    | none => [s]
    | some m => s.take m :: genSplit n (s.drop (m + sep.length)) sep

/-- `strings.Split(s, sep)` for a non-empty `sep` (every call site passes a
non-empty literal).  Go bounds the loop by `Count(s, sep)`, the number of
non-overlapping instances of `sep`; `s.length` is an upper bound of it, and
the loop stops by itself when no instance is left. -/
def Split (s sep : Str) : List Str := genSplit s.length s sep

/-- `unicode.IsSpace(r)`: the code points with the White_Space property. -/
def isSpace (r : Char) : Bool :=
  let n := r.toNat
  (9 ≤ n && n ≤ 13) || n == 0x20 || n == 0x85 || n == 0xA0 || n == 0x1680 ||
  (0x2000 ≤ n && n ≤ 0x200A) || n == 0x2028 || n == 0x2029 || n == 0x202F ||
  n == 0x205F || n == 0x3000

/-- `strings.TrimSpace(s)`: `s` without its leading and trailing white
space. -/
def TrimSpace (s : Str) : Str := (s.dropWhile isSpace).rdropWhile isSpace

/-- The index expression `a[i]` of Go: panics when `i` is out of range. -/
def index {α : Type} (a : List α) (i : Nat) : Except Panic α :=
  match a.get? i with
  | some x => .ok x
  | none => .error (.indexOutOfRange i a.length)

/-- The indexed assignment `a[i] = x` of Go: panics when `i` is not below
the length of `a` (the capacity plays no role). -/
def setIndex {α : Type} (a : List α) (i : Nat) (x : α) : Except Panic (List α) :=
  if i < a.length then .ok (a.set i x) else .error (.indexOutOfRange i a.length)

/-- `make([]T, len, cap)` for strings: a slice of `len` zero values. -/
def make (len _cap : Nat) : List Str := List.replicate len []

/-! ## `topoapi.Filter` -/

/-- A `topoapi.Filter`: a `Key` and one of the forms `Equal`, `In`, `Not`
(the protobuf `oneof`).  The inner filter of `Not` is a `Filter` again, with
a key of its own. -/
inductive Filter where
  | Equal (Key : Str) (Value : Str)
  | In (Key : Str) (Values : List Str)
  | Not (Key : Str) (Inner : Filter)
  deriving DecidableEq, Repr

/-- The `Key` field of a filter. -/
def Filter.Key : Filter → Str
  | .Equal k _ => k
  | .In k _ => k
  | .Not k _ => k

/-! ## `pkg/topo/filters.go` -/

/-- `extractKey(field, sep)`: `strings.TrimSpace(strings.Split(field, sep)[0])`. -/
def extractKey (field sep : Str) : Except Panic Str := do
  let k ← index (Split field sep) 0
  pure (TrimSpace k)

/-- `extractValue(field)`: `strings.TrimSpace(strings.Split(field, "=")[1])`. -/
def extractValue (field : Str) : Except Panic Str := do
  let v ← index (Split field "=".toList) 1
  pure (TrimSpace v)

/-- `extractValues(field)`: the text between the first `(` and the next `)`,
split at commas, each piece trimmed and stored by index into
`make([]string, 0, len(gs))`. -/
def extractValues (field : Str) : Except Panic (List Str) := do
  let afterOpen ← index (Split field "(".toList) 1
  let inside ← index (Split afterOpen ")".toList) 0
  let gs := Split inside ",".toList
  let values := make 0 gs.length
  gs.enum.foldlM (fun values iv => setIndex values iv.1 (TrimSpace iv.2)) values

/-- `compileLabelFilter(field)`: the `*Filter` (`none` for `nil`); the
returned `error` is `nil` on every path and is not modelled. -/
def compileLabelFilter (field : Str) : Except Panic (Option Filter) :=
  if Contains field " !in (".toList then do
    let key ← extractKey field " !in (".toList
    let values ← extractValues field
    pure (some (Filter.Not key (Filter.In [] values)))
  else if Contains field " in (".toList then do
    let key ← extractKey field " in (".toList
    let values ← extractValues field
    pure (some (Filter.In key values))
  else if Contains field "!=".toList then do
    let key ← extractKey field "!=".toList
    let value ← extractValue field
    pure (some (Filter.Not key (Filter.Equal [] value)))
  else if Contains field "=".toList then do
    let key ← extractKey field "!=".toList
    let value ← extractValue field
    pure (some (Filter.Equal key value))
  else
    pure none

/-- `compileLabelFilters(query)`. -/
def compileLabelFilters (query : Str) : Except Panic (List Filter) :=
  let filters : List Filter := []
  let fields := Split query ",".toList
  fields.foldlM (fun filters field => do
    let filter ← compileLabelFilter (TrimSpace field)
    match filter with
    | some f => pure (filters ++ [f])
    | none => pure filters) filters

/-- `compileKindFilter(field)`: `return nil, nil`. -/
def compileKindFilter (_field : Str) : Except Panic (Option Filter) :=
  pure none

/-- `compileKindFilters(query)`. -/
def compileKindFilters (query : Str) : Except Panic (List Filter) :=
  let filters : List Filter := []
  let fields := Split query ",".toList
  fields.foldlM (fun filters field => do
    let filter ← compileKindFilter (TrimSpace field)
    match filter with
    | some f => pure (filters ++ [f])
    | none => pure filters) filters

/-- The step of the loop of `compileLabelFilters`. -/
def labelStep (filters : List Filter) (field : Str) : Except Panic (List Filter) := do
  let filter ← compileLabelFilter (TrimSpace field)
  match filter with
  | some f => pure (filters ++ [f])
  | none => pure filters

/-- The step of the loop of `compileKindFilters`. -/
def kindStep (filters : List Filter) (field : Str) : Except Panic (List Filter) := do
  let filter ← compileKindFilter (TrimSpace field)
  match filter with
  | some f => pure (filters ++ [f])
  | none => pure filters

/-- The filter that one comma-separated clause contributes to the output of
`compileLabelFilters`: the result of `compileLabelFilter` on the trimmed
clause, nothing when that is `nil`. -/
def clauseResult (field : Str) : Option Filter :=
  match compileLabelFilter (TrimSpace field) with
  | .ok filter => filter
  | .error _ => none

/-! ## `pkg/ransim/nodes.go` -/

/-- The conversion `types.ECGI(id)` of a `uint` to `uint64`. -/
def ECGI (id : Nat) : Nat := id % 2 ^ 64

/-- A `types.Node`. -/
structure Node where
  EnbID : Nat
  Controllers : List Str
  ServiceModels : List Str
  CellECGIs : List Nat
  Status : Str
  deriving DecidableEq, Repr

/-- The flag set of a command (`cmd.Flags()`), as far as `optionsToNode`
reads it: the value of a flag, and whether the flag was set on the command
line.  The errors of the getters are discarded by the code. -/
structure FlagSet where
  GetUintSlice : String → List Nat
  GetStringSlice : String → List Str
  Changed : String → Bool

/-- `toECGIs(ids)`: appends the converted ids to an empty slice. -/
def toECGIs (ids : List Nat) : List Nat :=
  ids.foldl (fun ecgis id => ecgis ++ [ECGI id]) []

/-- `optionsToNode(cmd, node, update)`: the node after the three
assignments; the returned `error` is `nil` on every path. -/
def optionsToNode (cmd : FlagSet) (node : Node) (update : Bool) : Node :=
  let cells := cmd.GetUintSlice "cells"
  let node := if !update || cmd.Changed "cells" then
    { node with CellECGIs := toECGIs cells } else node
  let models := cmd.GetStringSlice "service-models"
  let node := if !update || cmd.Changed "service-models" then
    { node with ServiceModels := models } else node
  let controllers := cmd.GetStringSlice "controllers"
  let node := if !update || cmd.Changed "controllers" then
    { node with Controllers := controllers } else node
  node

/-! ## Lemmas on the library model -/

theorem hasPrefix_iff (s pre : Str) : HasPrefix s pre = true ↔ pre <+: s := by
  induction s generalizing pre with
  | nil => cases pre <;> simp [HasPrefix]
  | cons c s ih =>
    cases pre with
    | nil => simp [HasPrefix]
    | cons d pre =>
      simp only [HasPrefix, Bool.and_eq_true, beq_iff_eq, ih, List.cons_prefix_cons]
      constructor
      · rintro ⟨h1, h2⟩; exact ⟨h1.symm, h2⟩
      · rintro ⟨h1, h2⟩; exact ⟨h1.symm, h2⟩

theorem index_nil (sep : Str) (hsep : sep ≠ []) : Index [] sep = none := by
  cases sep with
  | nil => exact absurd rfl hsep
  | cons d pre => simp [Index, HasPrefix]

theorem index_cons (c : Char) (s sep : Str) :
    Index (c :: s) sep =
      if HasPrefix (c :: s) sep then some 0 else (Index s sep).map (· + 1) := by
  simp [Index]

theorem index_none_iff (s sep : Str) : Index s sep = none ↔ ¬ sep <:+: s := by
  induction s with
  | nil =>
    cases sep with
    | nil => simp [Index, HasPrefix]
    | cons d pre => simp [Index, HasPrefix]
  | cons c s ih =>
    rw [index_cons, List.infix_cons_iff, ← hasPrefix_iff]
    by_cases h : HasPrefix (c :: s) sep = true
    · simp [h]
    · simp [h, ih]

theorem contains_iff (s sep : Str) : Contains s sep = true ↔ sep <:+: s := by
  unfold Contains
  rw [Option.isSome_iff_ne_none, Ne, index_none_iff, not_not]

theorem contains_eq_false_iff (s sep : Str) : Contains s sep = false ↔ ¬ sep <:+: s := by
  rw [← contains_iff]; simp

/-- Where `Index` finds `sep`, `sep` stands. -/
theorem index_some_spec (s sep : Str) (m : Nat) (h : Index s sep = some m) :
    s = s.take m ++ sep ++ s.drop (m + sep.length) := by
  induction s generalizing m with
  | nil =>
    cases sep with
    | nil => simp [Index, HasPrefix] at h; subst h; simp
    | cons d pre => simp [Index, HasPrefix] at h
  | cons c s ih =>
    rw [index_cons] at h
    by_cases hp : HasPrefix (c :: s) sep = true
    · simp only [hp, if_true, Option.some.injEq] at h
      subst h
      obtain ⟨t, ht⟩ := (hasPrefix_iff _ _).1 hp
      rw [← ht]; simp
    · simp only [hp] at h
      cases hi : Index s sep with
      | none => simp [hi] at h
      | some k =>
        simp [hi] at h
        subst h
        have := ih k hi
        simp only [List.take_succ_cons, List.cons_append]
        rw [show k + 1 + sep.length = (k + sep.length) + 1 by omega, List.drop_succ_cons]
        simpa using this

theorem index_some_le (s sep : Str) (m : Nat) (h : Index s sep = some m) :
    m + sep.length ≤ s.length := by
  induction s generalizing m with
  | nil =>
    cases sep with
    | nil => simp [Index, HasPrefix] at h; subst h; simp
    | cons d pre => simp [Index, HasPrefix] at h
  | cons c s ih =>
    rw [index_cons] at h
    by_cases hp : HasPrefix (c :: s) sep = true
    · simp only [hp, if_true, Option.some.injEq] at h
      subst h
      have := ((hasPrefix_iff _ _).1 hp).length_le
      simpa using this
    · simp only [hp] at h
      cases hi : Index s sep with
      | none => simp [hi] at h
      | some k =>
        simp [hi] at h
        subst h
        have := ih k hi
        simp only [List.length_cons]
        omega

/-- The first instance of `h :: tl` behind a text without `h` is right
behind that text. -/
theorem index_append_of_not_mem (a tl b : Str) (h : Char) (ha : h ∉ a) :
    Index (a ++ h :: tl ++ b) (h :: tl) = some a.length := by
  induction a with
  | nil =>
    have : HasPrefix (h :: tl ++ b) (h :: tl) = true :=
      (hasPrefix_iff _ _).2 (List.prefix_append _ _)
    simp only [List.nil_append, List.length_nil]
    rw [List.cons_append, index_cons, ← List.cons_append, this]; rfl
  | cons c a ih =>
    simp only [List.mem_cons, not_or] at ha
    have hc : (c == h) = false := by
      simp only [beq_eq_false_iff_ne, ne_eq]; exact fun e => ha.1 e.symm
    simp only [List.cons_append] at ih ⊢
    rw [index_cons]
    simp only [HasPrefix, hc, Bool.false_and, Bool.false_eq_true, if_false, ih ha.2]
    rfl

theorem index_none_of_not_mem (s sep : Str) (c : Char) (hc : c ∈ sep) (hs : c ∉ s) :
    Index s sep = none := by
  rw [index_none_iff]
  intro h
  exact hs (h.subset hc)

theorem contains_false_of_not_mem (s sep : Str) (c : Char) (hc : c ∈ sep) (hs : c ∉ s) :
    Contains s sep = false := by
  unfold Contains; rw [index_none_of_not_mem s sep c hc hs]; rfl

/-- Fuel beyond the length of the text changes nothing. -/
theorem genSplit_fuel (sep : Str) (hsep : sep ≠ []) (n m : Nat) (s : Str)
    (hn : s.length ≤ n) (hm : s.length ≤ m) : genSplit n s sep = genSplit m s sep := by
  have hl : 0 < sep.length := List.length_pos.2 hsep
  induction n generalizing s m with
  | zero =>
    have hs : s = [] := List.length_eq_zero.1 (by omega)
    subst hs
    cases m with
    | zero => rfl
    | succ m => simp [genSplit, index_nil sep hsep]
  | succ n ih =>
    cases m with
    | zero =>
      have hs : s = [] := List.length_eq_zero.1 (by omega)
      subst hs
      simp [genSplit, index_nil sep hsep]
    | succ m =>
      simp only [genSplit]
      cases hi : Index s sep with
      | none => rfl
      | some k =>
        have hk := index_some_le s sep k hi
        simp only
        rw [ih m (s.drop (k + sep.length)) (by simp; omega) (by simp; omega)]

/-- The loop of `strings.Split`, one step. -/
theorem split_eq (s sep : Str) (hsep : sep ≠ []) :
    Split s sep =
      match Index s sep with
      | none => [s]
      | some m => s.take m :: Split (s.drop (m + sep.length)) sep := by
  have hl : 0 < sep.length := List.length_pos.2 hsep
  unfold Split
  cases s with
  | nil => simp [genSplit, index_nil sep hsep]
  | cons c s =>
    simp only [List.length_cons, genSplit]
    cases hi : Index (c :: s) sep with
    | none => rfl
    | some k =>
      have hk := index_some_le (c :: s) sep k hi
      simp only
      rw [genSplit_fuel sep hsep s.length ((c :: s).drop (k + sep.length)).length _
        (by simp at hk ⊢; omega) (le_refl _)]

theorem split_of_index_none (s sep : Str) (h : Index s sep = none) : Split s sep = [s] := by
  unfold Split
  cases hn : s.length with
  | zero => rfl
  | succ n => simp [genSplit, h]

theorem split_of_index_some (s sep : Str) (hsep : sep ≠ []) (m : Nat)
    (h : Index s sep = some m) :
    Split s sep = s.take m :: Split (s.drop (m + sep.length)) sep := by
  rw [split_eq s sep hsep, h]

/-- Splitting `a ++ sep ++ b` at `sep`, when the first character of `sep`
is not in `a`, cuts off `a`. -/
theorem split_append_of_not_mem (a tl b : Str) (h : Char) (ha : h ∉ a) :
    Split (a ++ h :: tl ++ b) (h :: tl) = a :: Split b (h :: tl) := by
  rw [split_of_index_some _ _ (List.cons_ne_nil _ _) _ (index_append_of_not_mem a tl b h ha)]
  congr 1
  · rw [List.append_assoc, List.take_left]
  · rw [← List.length_append, List.drop_left]

/-- The pieces of a split are pieces of the text. -/
theorem genSplit_piece (sep : Str) (n : Nat) (s f : Str) (hf : f ∈ genSplit n s sep) :
    f <:+: s := by
  induction n generalizing s with
  | zero =>
    simp only [genSplit, List.mem_singleton] at hf
    subst hf; exact List.infix_refl _
  | succ n ih =>
    simp only [genSplit] at hf
    cases hi : Index s sep with
    | none =>
      simp only [hi, List.mem_singleton] at hf
      subst hf; exact List.infix_refl _
    | some m =>
      simp only [hi, List.mem_cons] at hf
      rcases hf with hf | hf
      · subst hf; exact (List.take_prefix _ _).isInfix
      · exact (ih _ hf).trans (List.drop_suffix _ _).isInfix

theorem split_piece (s sep f : Str) (hf : f ∈ Split s sep) : f <:+: s :=
  genSplit_piece sep _ s f hf

/-- A character that is in a text stands there a first time. -/
theorem exists_first (ch : Char) (s : Str) (h : ch ∈ s) :
    ∃ a b, s = a ++ ch :: b ∧ ch ∉ a := by
  induction s with
  | nil => simp at h
  | cons c s ih =>
    by_cases hc : ch = c
    · exact ⟨[], s, by simp [hc], by simp⟩
    · have hs : ch ∈ s := by
        rcases List.mem_cons.1 h with h | h
        · exact absurd h hc
        · exact h
      obtain ⟨a, b, hab, ha⟩ := ih hs
      refine ⟨c :: a, b, by simp [hab], ?_⟩
      simp only [List.mem_cons, not_or]
      exact ⟨hc, ha⟩

theorem split_char_of_not_mem (ch : Char) (s : Str) (h : ch ∉ s) : Split s [ch] = [s] :=
  split_of_index_none s [ch] (index_none_of_not_mem s [ch] ch (by simp) h)

theorem split_char_append (ch : Char) (a b : Str) (ha : ch ∉ a) :
    Split (a ++ ch :: b) [ch] = a :: Split b [ch] := by
  have := split_append_of_not_mem a [] b ch ha
  simpa using this

/-- Splitting at a character distributes over joining with that character. -/
theorem split_char_join_aux (ch : Char) (q2 : Str) (n : Nat) :
    ∀ q1 : Str, q1.length ≤ n →
      Split (q1 ++ ch :: q2) [ch] = Split q1 [ch] ++ Split q2 [ch] := by
  induction n with
  | zero =>
    intro q1 hq
    have : q1 = [] := List.length_eq_zero.1 (by omega)
    subst this
    rw [split_char_append ch [] q2 (by simp), split_char_of_not_mem ch [] (by simp)]
    rfl
  | succ n ih =>
    intro q1 hq
    by_cases h : ch ∈ q1
    · obtain ⟨a, b, hab, ha⟩ := exists_first ch q1 h
      subst hab
      have hb : b.length ≤ n := by simp at hq; omega
      rw [List.append_assoc, List.cons_append, split_char_append ch a _ ha,
        split_char_append ch a b ha, ih b hb]
      rfl
    · rw [split_char_append ch q1 q2 h, split_char_of_not_mem ch q1 h]
      rfl

/-- Splitting at a character distributes over joining with that character. -/
theorem split_char_join (ch : Char) (q1 q2 : Str) :
    Split (q1 ++ ch :: q2) [ch] = Split q1 [ch] ++ Split q2 [ch] :=
  split_char_join_aux ch q2 q1.length q1 (le_refl _)

/-! ### `TrimSpace` -/

theorem dropWhile_append_cons (p : Char → Bool) (k r : Str) (x : Char) (hx : p x = false) :
    (k ++ x :: r).dropWhile p = k.dropWhile p ++ x :: r := by
  induction k with
  | nil => simp [List.dropWhile, hx]
  | cons c k ih =>
    by_cases hc : p c = true
    · simp [List.dropWhile, hc, ih]
    · simp [List.dropWhile, hc]

theorem rdropWhile_append_cons (p : Char → Bool) (l v : Str) (y : Char) (hy : p y = false) :
    (l ++ y :: v).rdropWhile p = l ++ y :: v.rdropWhile p := by
  unfold List.rdropWhile
  rw [List.reverse_append, List.reverse_cons, List.append_assoc, List.singleton_append,
    dropWhile_append_cons p _ _ y hy]
  simp

theorem rdropWhile_cons (p : Char → Bool) (c : Char) (t : Str) :
    (c :: t).rdropWhile p =
      if t.rdropWhile p = [] ∧ p c = true then [] else c :: t.rdropWhile p := by
  by_cases ht : t.rdropWhile p = []
  · have hall := List.rdropWhile_eq_nil_iff.1 ht
    by_cases hc : p c = true
    · simp only [ht, hc, and_self, if_true]
      rw [List.rdropWhile_eq_nil_iff]
      intro x hx
      rcases List.mem_cons.1 hx with h | h
      · subst h; exact hc
      · exact hall x h
    · simp only [ht, hc, and_false, if_false]
      have := rdropWhile_append_cons p [] t c (by simpa using hc)
      simpa [ht] using this
  · simp only [ht, false_and, if_false]
    obtain ⟨y, hy, hpy⟩ : ∃ y ∈ t, ¬ p y = true := by
      by_contra hcon
      push_neg at hcon
      exact ht (List.rdropWhile_eq_nil_iff.2 hcon)
    obtain ⟨a, b, hab⟩ := List.append_of_mem hy
    subst hab
    rw [← List.cons_append, rdropWhile_append_cons p _ _ y (by simpa using hpy),
      rdropWhile_append_cons p _ _ y (by simpa using hpy)]
    rfl

/-- Trimming on the left and trimming on the right commute. -/
theorem dropWhile_rdropWhile_comm (p : Char → Bool) (v : Str) :
    (v.rdropWhile p).dropWhile p = (v.dropWhile p).rdropWhile p := by
  induction v with
  | nil => simp
  | cons c t ih =>
    rw [rdropWhile_cons]
    by_cases hc : p c = true
    · rw [List.dropWhile_cons_of_pos hc]
      by_cases ht : t.rdropWhile p = []
      · simp only [ht, hc, and_self, if_true, List.dropWhile_nil]
        rw [← ih, ht]; rfl
      · simp only [ht, false_and, if_false]
        rw [List.dropWhile_cons_of_pos hc, ih]
    · rw [List.dropWhile_cons_of_neg hc]
      have hc2 : p c = false := by simpa using hc
      simp only [hc2, Bool.false_eq_true, and_false, if_false]
      rw [List.dropWhile_cons_of_neg hc, rdropWhile_cons]
      simp [hc2]

theorem trimSpace_dropWhile (s : Str) : TrimSpace (s.dropWhile isSpace) = TrimSpace s := by
  unfold TrimSpace; rw [List.dropWhile_idempotent]

theorem trimSpace_rdropWhile (s : Str) : TrimSpace (s.rdropWhile isSpace) = TrimSpace s := by
  unfold TrimSpace; rw [dropWhile_rdropWhile_comm, List.rdropWhile_idempotent]

theorem trimSpace_idem (s : Str) : TrimSpace (TrimSpace s) = TrimSpace s := by
  show TrimSpace ((s.dropWhile isSpace).rdropWhile isSpace) = _
  rw [trimSpace_rdropWhile, trimSpace_dropWhile]

theorem trimSpace_piece (s : Str) : TrimSpace s <:+: s :=
  (List.rdropWhile_prefix isSpace _).isInfix.trans (List.dropWhile_suffix isSpace).isInfix

/-- Trimming around a non-space character trims the two sides. -/
theorem trimSpace_around (k v : Str) (x : Char) (hx : isSpace x = false) :
    TrimSpace (k ++ x :: v) = k.dropWhile isSpace ++ x :: v.rdropWhile isSpace := by
  unfold TrimSpace
  rw [dropWhile_append_cons _ _ _ _ hx, rdropWhile_append_cons _ _ _ _ hx]

theorem trimSpace_around_two (k v : Str) (x y : Char) (hx : isSpace x = false)
    (hy : isSpace y = false) :
    TrimSpace (k ++ x :: y :: v) = k.dropWhile isSpace ++ x :: y :: v.rdropWhile isSpace := by
  unfold TrimSpace
  rw [dropWhile_append_cons _ _ _ _ hx]
  have h := rdropWhile_append_cons isSpace (k.dropWhile isSpace ++ [x]) v y hy
  simpa using h

theorem not_mem_dropWhile (c : Char) (s : Str) (h : c ∉ s) : c ∉ s.dropWhile isSpace :=
  fun hc => h ((List.dropWhile_sublist isSpace).subset hc)

theorem not_mem_rdropWhile (c : Char) (s : Str) (h : c ∉ s) : c ∉ s.rdropWhile isSpace :=
  fun hc => h ((List.rdropWhile_prefix isSpace s).subset hc)

/-! ## Lemmas on `filters.go` -/

theorem index_zero {α : Type} (a : α) (l : List α) : index (a :: l) 0 = .ok a := rfl

theorem index_one {α : Type} (a b : α) (l : List α) : index (a :: b :: l) 1 = .ok b := rfl

theorem compileLabelFilters_eq (query : Str) :
    compileLabelFilters query = (Split query ",".toList).foldlM labelStep [] := rfl

/-- A query without a comma is one clause. -/
theorem compileLabelFilters_single (q : Str) (h : ',' ∉ q) :
    compileLabelFilters q = labelStep [] q := by
  rw [compileLabelFilters_eq]
  have : Split q ",".toList = [q] := split_char_of_not_mem ',' q h
  rw [this]
  simp only [List.foldlM, bind_pure]

/-- The two equality branches of `compileLabelFilter`. -/
theorem compileLabelFilter_noIn (field : Str)
    (h1 : Contains field " !in (".toList = false)
    (h2 : Contains field " in (".toList = false) :
    compileLabelFilter field =
      if Contains field "!=".toList then do
        let key ← extractKey field "!=".toList
        let value ← extractValue field
        pure (some (Filter.Not key (Filter.Equal [] value)))
      else if Contains field "=".toList then do
        let key ← extractKey field "!=".toList
        let value ← extractValue field
        pure (some (Filter.Equal key value))
      else pure none := by
  unfold compileLabelFilter
  simp only [h1, h2, Bool.false_eq_true, if_false]

/-- A clause `kl != vr` whose sides hold none of `=`, `!`, `(`. -/
theorem notEqual_clause (kl vr : Str)
    (hk : '=' ∉ kl ∧ '!' ∉ kl ∧ '(' ∉ kl) (hv : '=' ∉ vr ∧ '!' ∉ vr ∧ '(' ∉ vr) :
    compileLabelFilter (kl ++ '!' :: '=' :: vr) =
      .ok (some (Filter.Not (TrimSpace kl) (Filter.Equal [] (TrimSpace vr)))) := by
  have hparen : '(' ∉ kl ++ '!' :: '=' :: vr := by
    simp only [List.mem_append, List.mem_cons, not_or]
    exact ⟨hk.2.2, by decide, by decide, hv.2.2⟩
  have h1 := contains_false_of_not_mem _ " !in (".toList '(' (by decide) hparen
  have h2 := contains_false_of_not_mem _ " in (".toList '(' (by decide) hparen
  have h3 : Contains (kl ++ '!' :: '=' :: vr) "!=".toList = true :=
    (contains_iff _ _).2 ⟨kl, vr, by simp⟩
  have hs1 : Split (kl ++ '!' :: '=' :: vr) "!=".toList = kl :: Split vr "!=".toList := by
    have := split_append_of_not_mem kl ['='] vr '!' hk.2.1
    simpa using this
  have hs2 : Split (kl ++ '!' :: '=' :: vr) "=".toList = [kl ++ ['!'], vr] := by
    have hne : '=' ∉ kl ++ ['!'] := by
      simp only [List.mem_append, List.mem_singleton, not_or]
      exact ⟨hk.1, by decide⟩
    have := split_char_append '=' (kl ++ ['!']) vr hne
    rw [split_char_of_not_mem '=' vr hv.1] at this
    simpa using this
  rw [compileLabelFilter_noIn _ h1 h2, h3]
  simp only [if_true, extractKey, extractValue, hs1, hs2, index_zero, index_one]
  rfl

/-- A clause `kl = vr` whose sides hold none of `=`, `!`, `(`: the key is the
whole clause, trimmed (the key is cut at `!=`, which does not occur). -/
theorem equal_clause (kl vr : Str)
    (hk : '=' ∉ kl ∧ '!' ∉ kl ∧ '(' ∉ kl) (hv : '=' ∉ vr ∧ '!' ∉ vr ∧ '(' ∉ vr) :
    compileLabelFilter (kl ++ '=' :: vr) =
      .ok (some (Filter.Equal (TrimSpace (kl ++ '=' :: vr)) (TrimSpace vr))) := by
  have hparen : '(' ∉ kl ++ '=' :: vr := by
    simp only [List.mem_append, List.mem_cons, not_or]
    exact ⟨hk.2.2, by decide, hv.2.2⟩
  have hbang : '!' ∉ kl ++ '=' :: vr := by
    simp only [List.mem_append, List.mem_cons, not_or]
    exact ⟨hk.2.1, by decide, hv.2.1⟩
  have h1 := contains_false_of_not_mem _ " !in (".toList '(' (by decide) hparen
  have h2 := contains_false_of_not_mem _ " in (".toList '(' (by decide) hparen
  have h3 := contains_false_of_not_mem _ "!=".toList '!' (by decide) hbang
  have h4 : Contains (kl ++ '=' :: vr) "=".toList = true :=
    (contains_iff _ _).2 ⟨kl, vr, by simp⟩
  have hs1 : Split (kl ++ '=' :: vr) "!=".toList = [kl ++ '=' :: vr] :=
    split_of_index_none _ _ (index_none_of_not_mem _ _ '!' (by decide) hbang)
  have hs2 : Split (kl ++ '=' :: vr) "=".toList = [kl, vr] := by
    have := split_char_append '=' kl vr hk.1
    rw [split_char_of_not_mem '=' vr hv.1] at this
    exact this
  rw [compileLabelFilter_noIn _ h1 h2, h3, h4]
  simp only [Bool.false_eq_true, if_false, if_true, extractKey, extractValue, hs1, hs2,
    index_zero, index_one]
  rfl

/-- A clause without any of the four operators compiles to no filter. -/
theorem compileLabelFilter_none (field : Str)
    (h1 : ¬ " !in (".toList <:+: field) (h2 : ¬ " in (".toList <:+: field)
    (h3 : '=' ∉ field) : compileLabelFilter field = .ok none := by
  have c1 := (contains_eq_false_iff _ _).2 h1
  have c2 := (contains_eq_false_iff _ _).2 h2
  have c3 := contains_false_of_not_mem field "!=".toList '=' (by decide) h3
  have c4 := contains_false_of_not_mem field "=".toList '=' (by decide) h3
  rw [compileLabelFilter_noIn _ c1 c2, c3, c4]
  rfl

theorem foldlM_labelStep_none (l : List Str) (acc : List Filter)
    (h : ∀ f ∈ l, compileLabelFilter (TrimSpace f) = .ok none) :
    l.foldlM labelStep acc = .ok acc := by
  induction l generalizing acc with
  | nil => rfl
  | cons f l ih =>
    have hf : labelStep acc f = .ok acc := by
      unfold labelStep; rw [h f (List.mem_cons_self _ _)]; rfl
    rw [List.foldlM_cons, hf]
    exact ih acc (fun g hg => h g (List.mem_cons_of_mem _ hg))

theorem foldlM_kindStep (l : List Str) (acc : List Filter) :
    l.foldlM kindStep acc = .ok acc := by
  induction l generalizing acc with
  | nil => rfl
  | cons f l ih =>
    rw [List.foldlM_cons]
    exact ih acc

/-- The loop of `compileLabelFilters` completes exactly when every clause
compiles without a panic, and then appends the clause results in order. -/
theorem foldlM_labelStep_ok_iff (l : List Str) (acc r : List Filter) :
    l.foldlM labelStep acc = .ok r ↔
      (∀ f ∈ l, ∃ o, compileLabelFilter (TrimSpace f) = .ok o) ∧
        r = acc ++ l.filterMap clauseResult := by
  induction l generalizing acc with
  | nil =>
    simp only [List.foldlM, List.not_mem_nil, false_imp_iff, implies_true, true_and,
      List.filterMap_nil, List.append_nil]
    constructor
    · intro h; cases h; rfl
    · intro h; subst h; rfl
  | cons f l ih =>
    rw [List.foldlM_cons]
    cases hc : compileLabelFilter (TrimSpace f) with
    | error e =>
      have hstep : labelStep acc f = .error e := by unfold labelStep; rw [hc]; rfl
      rw [hstep]
      constructor
      · intro h; cases h
      · rintro ⟨h, _⟩
        obtain ⟨o, ho⟩ := h f (List.mem_cons_self _ _)
        rw [hc] at ho; cases ho
    | ok o =>
      have hres : clauseResult f = o := by unfold clauseResult; rw [hc]
      have hstep : labelStep acc f = .ok (acc ++ o.toList) := by
        unfold labelStep; rw [hc]
        cases o <;> simp [Option.toList] <;> rfl
      rw [hstep]
      show l.foldlM labelStep (acc ++ o.toList) = .ok r ↔ _
      rw [ih]
      have hfm : acc ++ o.toList ++ l.filterMap clauseResult
          = acc ++ (f :: l).filterMap clauseResult := by
        rw [List.filterMap_cons, hres]
        cases o <;> simp [Option.toList]
      rw [hfm]
      constructor
      · rintro ⟨h1, h2⟩
        refine ⟨?_, h2⟩
        intro g hg
        rcases List.mem_cons.1 hg with hg | hg
        · subst hg; exact ⟨o, hc⟩
        · exact h1 g hg
      · rintro ⟨h1, h2⟩
        exact ⟨fun g hg => h1 g (List.mem_cons_of_mem _ hg), h2⟩

/-- A split has a first piece. -/
theorem split_ne_nil (s sep : Str) : ∃ h t, Split s sep = h :: t := by
  unfold Split
  cases s.length with
  | zero => exact ⟨s, [], rfl⟩
  | succ n =>
    simp only [genSplit]
    cases Index s sep with
    | none => exact ⟨s, [], rfl⟩
    | some m => exact ⟨_, _, rfl⟩

/-- The first piece of a split at a character is the text before the first
instance of that character. -/
theorem split_char_head (ch : Char) (s : Str) :
    ∃ t, Split s [ch] = s.takeWhile (· != ch) :: t := by
  by_cases h : ch ∈ s
  · obtain ⟨a, b, hab, ha⟩ := exists_first ch s h
    subst hab
    refine ⟨Split b [ch], ?_⟩
    rw [split_char_append ch a b ha]
    have hall : ∀ x ∈ a, (x != ch) = true := by
      intro x hx
      simp only [bne_iff_ne, ne_eq]
      intro e; subst e; exact ha hx
    rw [List.takeWhile_append_of_pos hall, List.takeWhile_cons_of_neg (by simp)]
    simp
  · refine ⟨[], ?_⟩
    rw [split_char_of_not_mem ch s h]
    have hall : ∀ x ∈ s, (x != ch) = true := by
      intro x hx
      simp only [bne_iff_ne, ne_eq]
      intro e; subst e; exact h hx
    have := @List.takeWhile_append_of_pos Char _ s [] hall
    simp only [List.append_nil, List.takeWhile_nil] at this
    rw [this]

/-- `extractKey` reads piece 0 of a split, which is there. -/
theorem extractKey_ok (field sep : Str) : ∃ key, extractKey field sep = .ok key := by
  obtain ⟨h, t, ht⟩ := split_ne_nil field sep
  exact ⟨TrimSpace h, by unfold extractKey; rw [ht, index_zero]; rfl⟩

/-- `extractValue` reads piece 1 of the split at `=`: on `a = rest` this
is the text of `rest` up to its first `=`. -/
theorem extractValue_eq (a rest : Str) (ha : '=' ∉ a) :
    extractValue (a ++ '=' :: rest) = .ok (TrimSpace (rest.takeWhile (· != '='))) := by
  obtain ⟨t, ht⟩ := split_char_head '=' rest
  have hs : Split (a ++ '=' :: rest) "=".toList = a :: rest.takeWhile (· != '=') :: t := by
    have := split_char_append '=' a rest ha
    rw [ht] at this
    exact this
  unfold extractValue
  rw [hs, index_one]
  rfl

/-- `extractValues` panics wherever it is reached with a `(` in the clause:
the reads `[1]` and `[0]` are in range, the first write `values[0]` into the
slice of length 0 is not. -/
theorem extractValues_panics (field : Str) (h : '(' ∈ field) :
    extractValues field = .error (.indexOutOfRange 0 0) := by
  obtain ⟨a, b, hab, ha⟩ := exists_first '(' field h
  obtain ⟨h1, t1, ht1⟩ := split_ne_nil b ['(']
  have hs : Split field "(".toList = a :: h1 :: t1 := by
    have := split_char_append '(' a b ha
    rw [ht1] at this
    rw [hab]; exact this
  obtain ⟨h2, t2, ht2⟩ := split_ne_nil h1 ")".toList
  obtain ⟨h3, t3, ht3⟩ := split_ne_nil h2 ",".toList
  unfold extractValues
  rw [hs, index_one]
  show (do
    let inside ← index (Split h1 ")".toList) 0
    (Split inside ",".toList).enum.foldlM
      (fun (values : List Str) (iv : Nat × Str) => setIndex values iv.1 (TrimSpace iv.2))
      (make 0 (Split inside ",".toList).length)) = _
  rw [ht2, index_zero]
  show (Split h2 ",".toList).enum.foldlM
      (fun (values : List Str) (iv : Nat × Str) => setIndex values iv.1 (TrimSpace iv.2))
      (make 0 (Split h2 ",".toList).length) = _
  rw [ht3, List.enum_cons, List.foldlM_cons]
  rfl

/-- Every membership clause panics in `extractValues`. -/
theorem compileLabelFilter_in_panics (field : Str)
    (h : Contains field " !in (".toList = true ∨ Contains field " in (".toList = true) :
    compileLabelFilter field = .error (.indexOutOfRange 0 0) := by
  have hparen : '(' ∈ field := by
    rcases h with h | h
    · exact ((contains_iff _ _).1 h).subset (by decide)
    · exact ((contains_iff _ _).1 h).subset (by decide)
  have hv := extractValues_panics field hparen
  unfold compileLabelFilter
  by_cases h1 : Contains field " !in (".toList = true
  · obtain ⟨key, hkey⟩ := extractKey_ok field " !in (".toList
    simp only [h1, if_true, hkey, hv]
    rfl
  · have h2 : Contains field " in (".toList = true := by
      rcases h with h | h
      · exact absurd h h1
      · exact h
    obtain ⟨key, hkey⟩ := extractKey_ok field " in (".toList
    simp only [h1, h2, if_true, if_false, hkey, hv]
    rfl

theorem toECGIs_foldl (ids acc : List Nat) :
    ids.foldl (fun ecgis id => ecgis ++ [ECGI id]) acc = acc ++ ids.map ECGI := by
  induction ids generalizing acc with
  | nil => simp
  | cons id ids ih => simp [List.foldl_cons, ih]

/-- `toECGIs` converts element by element. -/
theorem toECGIs_eq_map (ids : List Nat) : toECGIs ids = ids.map ECGI := by
  unfold toECGIs; rw [toECGIs_foldl]; rfl

/-- The conversion to `uint64` keeps the value of a `uint`. -/
theorem ECGI_eq (id : Nat) (h : id < 2 ^ 64) : ECGI id = id := Nat.mod_eq_of_lt h

/-! ## The claims -/

/-- C3. Negated-equality clause: for every key `k` and value `v` holding
none of `,`, `=`, `!`, `(`, `compileLabelFilters (k ++ "!=" ++ v)` returns
exactly one filter, with `Key` the trimmed `k`, of the form `Not` around an
inner `Equal` whose value is the trimmed `v`. -/
theorem compileLabelFilters_notEqual (k v : Str)
    (hk : ',' ∉ k ∧ '=' ∉ k ∧ '!' ∉ k ∧ '(' ∉ k)
    (hv : ',' ∉ v ∧ '=' ∉ v ∧ '!' ∉ v ∧ '(' ∉ v) :
    compileLabelFilters (k ++ "!=".toList ++ v) =
      .ok [Filter.Not (TrimSpace k) (Filter.Equal [] (TrimSpace v))] := by
  have hq : k ++ "!=".toList ++ v = k ++ '!' :: '=' :: v := by simp
  have hcomma : ',' ∉ k ++ '!' :: '=' :: v := by
    simp only [List.mem_append, List.mem_cons, not_or]
    exact ⟨hk.1, by decide, by decide, hv.1⟩
  rw [hq, compileLabelFilters_single _ hcomma]
  unfold labelStep
  rw [trimSpace_around_two k v '!' '=' (by decide) (by decide),
    notEqual_clause _ _
      ⟨not_mem_dropWhile _ _ hk.2.1, not_mem_dropWhile _ _ hk.2.2.1,
        not_mem_dropWhile _ _ hk.2.2.2⟩
      ⟨not_mem_rdropWhile _ _ hv.2.1, not_mem_rdropWhile _ _ hv.2.2.1,
        not_mem_rdropWhile _ _ hv.2.2.2⟩,
    trimSpace_dropWhile, trimSpace_rdropWhile]
  rfl

/-- C3, at the clause `b!=2`. -/
theorem compileLabelFilters_notEqual_witness :
    compileLabelFilters ("b".toList ++ "!=".toList ++ "2".toList) =
      .ok [Filter.Not (TrimSpace "b".toList) (Filter.Equal [] (TrimSpace "2".toList))] :=
  compileLabelFilters_notEqual "b".toList "2".toList (by decide) (by decide)

/-- C5. Unrecognized clauses are dropped without an error: a query with no
`=` and neither ` in (` nor ` !in (` as a substring compiles to the empty
sequence. -/
theorem compileLabelFilters_unrecognized (q : Str) (heq : '=' ∉ q)
    (hin : Contains q " in (".toList = false)
    (hnin : Contains q " !in (".toList = false) :
    compileLabelFilters q = .ok [] := by
  rw [compileLabelFilters_eq]
  apply foldlM_labelStep_none
  intro f hf
  have hinf : TrimSpace f <:+: q := (trimSpace_piece f).trans (split_piece _ _ _ hf)
  apply compileLabelFilter_none
  · exact fun h => (contains_eq_false_iff _ _).1 hnin (h.trans hinf)
  · exact fun h => (contains_eq_false_iff _ _).1 hin (h.trans hinf)
  · exact fun h => heq (hinf.subset h)

/-- C5, at the empty query and at the query `garbage`. -/
theorem compileLabelFilters_unrecognized_witness :
    compileLabelFilters "".toList = .ok [] ∧ compileLabelFilters "garbage".toList = .ok [] :=
  ⟨compileLabelFilters_unrecognized "".toList (by decide) (by decide) (by decide),
    compileLabelFilters_unrecognized "garbage".toList (by decide) (by decide) (by decide)⟩

/-- C8. Kind-filter compilation is a no-op: `compileKindFilters` returns
the empty sequence, without a panic, on every input. -/
theorem compileKindFilters_empty (query : Str) : compileKindFilters query = .ok [] :=
  foldlM_kindStep (Split query ",".toList) []

/-- C6. Order preservation: when compilation completes, the output of
`compileLabelFilters` is the sequence of the results of the comma-separated
clauses, in input order, the clauses without a filter left out; and for
queries `q1`, `q2` on which compilation completes, the query
`q1 ++ "," ++ q2` compiles to the output for `q1` followed by the output
for `q2`. -/
theorem compileLabelFilters_order (q1 q2 : Str) (r1 r2 : List Filter)
    (h1 : compileLabelFilters q1 = .ok r1) (h2 : compileLabelFilters q2 = .ok r2) :
    r1 = (Split q1 ",".toList).filterMap clauseResult ∧
      compileLabelFilters (q1 ++ ",".toList ++ q2) = .ok (r1 ++ r2) := by
  rw [compileLabelFilters_eq, foldlM_labelStep_ok_iff] at h1 h2
  obtain ⟨a1, e1⟩ := h1
  obtain ⟨a2, e2⟩ := h2
  simp only [List.nil_append] at e1 e2
  refine ⟨e1, ?_⟩
  have hsplit : Split (q1 ++ ",".toList ++ q2) ",".toList
      = Split q1 ",".toList ++ Split q2 ",".toList := by
    have := split_char_join ',' q1 q2
    simpa using this
  rw [compileLabelFilters_eq, foldlM_labelStep_ok_iff, hsplit]
  refine ⟨?_, ?_⟩
  · intro f hf
    rcases List.mem_append.1 hf with hf | hf
    · exact a1 f hf
    · exact a2 f hf
  · rw [List.filterMap_append, ← e1, ← e2]; rfl

/-- C6, at the queries `garbage` and `a=1`. -/
theorem compileLabelFilters_order_witness :
    [] = (Split "garbage".toList ",".toList).filterMap clauseResult ∧
      compileLabelFilters ("garbage".toList ++ ",".toList ++ "a=1".toList) =
        .ok ([] ++ [Filter.Equal "a=1".toList "1".toList]) :=
  compileLabelFilters_order "garbage".toList "a=1".toList []
    [Filter.Equal "a=1".toList "1".toList] rfl rfl

/-- C7, as stated, fails on the clause `a=b=c`: the compiled value is `b`,
the text between the first and the second `=`, and not `b=c`. -/
theorem compileLabelFilter_value_counterexample :
    compileLabelFilter "a=b=c".toList =
        .ok (some (Filter.Equal "a=b=c".toList "b".toList)) ∧
      "b".toList ≠ TrimSpace "b=c".toList := by
  refine ⟨rfl, ?_⟩
  decide

/-- C7, amended. For every clause `a ++ "=" ++ rest` with no `=` in `a`
(so that this is the first `=`) and neither ` in (` nor ` !in (`, the value
of the compiled `Equal` (the inner `Equal` for a `!=` clause) is the text
of `rest` up to its next `=`, trimmed; this is all of `rest` when `rest`
holds no `=`. -/
theorem compileLabelFilter_value (a rest : Str) (ha : '=' ∉ a)
    (hin : Contains (a ++ '=' :: rest) " in (".toList = false)
    (hnin : Contains (a ++ '=' :: rest) " !in (".toList = false) :
    ∃ key, compileLabelFilter (a ++ '=' :: rest) =
      .ok (some (if Contains (a ++ '=' :: rest) "!=".toList
        then Filter.Not key (Filter.Equal [] (TrimSpace (rest.takeWhile (· != '='))))
        else Filter.Equal key (TrimSpace (rest.takeWhile (· != '='))))) := by
  obtain ⟨key, hkey⟩ := extractKey_ok (a ++ '=' :: rest) "!=".toList
  refine ⟨key, ?_⟩
  have h4 : Contains (a ++ '=' :: rest) "=".toList = true :=
    (contains_iff _ _).2 ⟨a, rest, by simp⟩
  rw [compileLabelFilter_noIn _ hnin hin, hkey, extractValue_eq a rest ha]
  by_cases h3 : Contains (a ++ '=' :: rest) "!=".toList = true
  · simp only [h3, if_true]; rfl
  · simp only [h3, h4, if_false, if_true]; rfl

/-- C7 amended, at the clause `a=b=c`. -/
theorem compileLabelFilter_value_witness :
    ∃ key, compileLabelFilter ("a".toList ++ '=' :: "b=c".toList) =
      .ok (some (if Contains ("a".toList ++ '=' :: "b=c".toList) "!=".toList
        then Filter.Not key
          (Filter.Equal [] (TrimSpace ("b=c".toList.takeWhile (· != '='))))
        else Filter.Equal key (TrimSpace ("b=c".toList.takeWhile (· != '='))))) :=
  compileLabelFilter_value "a".toList "b=c".toList (by decide) (by decide) (by decide)

/-- C9. Sparse update: `optionsToNode` with `update = true` replaces exactly
those of `CellECGIs`, `ServiceModels`, `Controllers` whose flag was changed
on the command line, by the (converted) flag value, and keeps every other
field, `EnbID` and `Status` included; with `update = false` the three fields
are set from the flag values and `EnbID`, `Status` are kept. -/
theorem optionsToNode_sparse (cmd : FlagSet) (node : Node) :
    optionsToNode cmd node true =
        { EnbID := node.EnbID
          Status := node.Status
          CellECGIs := if cmd.Changed "cells" then (cmd.GetUintSlice "cells").map ECGI
            else node.CellECGIs
          ServiceModels := if cmd.Changed "service-models"
            then cmd.GetStringSlice "service-models" else node.ServiceModels
          Controllers := if cmd.Changed "controllers"
            then cmd.GetStringSlice "controllers" else node.Controllers } ∧
      optionsToNode cmd node false =
        { EnbID := node.EnbID
          Status := node.Status
          CellECGIs := (cmd.GetUintSlice "cells").map ECGI
          ServiceModels := cmd.GetStringSlice "service-models"
          Controllers := cmd.GetStringSlice "controllers" } := by
  unfold optionsToNode
  simp only [toECGIs_eq_map, Bool.not_true, Bool.false_or, Bool.not_false, Bool.true_or,
    if_true]
  refine ⟨?_, trivial⟩
  cases cmd.Changed "cells" <;> cases cmd.Changed "service-models" <;>
    cases cmd.Changed "controllers" <;> simp

/-- C1. On the clause `a=1` the compiled filter is `Equal` with value `1`,
but its `Key` is the whole clause `a=1` and not `a`: the key is cut at `!=`,
which the clause does not hold. -/
theorem compileLabelFilters_equal_key :
    compileLabelFilters ("a".toList ++ "=".toList ++ "1".toList) =
        .ok [Filter.Equal "a=1".toList "1".toList] ∧
      "a=1".toList ≠ TrimSpace "a".toList := by
  refine ⟨rfl, ?_⟩
  decide

/-- C2. The membership clause `a in (1, 2, 3)` does not compile to a filter:
`extractValues` panics at the write `values[0]` into a slice of length 0. -/
theorem compileLabelFilters_in_panics :
    compileLabelFilters "a in (1, 2, 3)".toList = .error (.indexOutOfRange 0 0) := rfl

/-- C4. The clause `a !in (1,2)` takes the branch of ` !in (`, and panics
there instead of yielding `Not(In(a, [1, 2]))`. -/
theorem compileLabelFilter_notIn_panics :
    Contains "a !in (1,2)".toList " !in (".toList = true ∧
      compileLabelFilter "a !in (1,2)".toList = .error (.indexOutOfRange 0 0) :=
  ⟨rfl, rfl⟩

/-- C10. `compileLabelFilters` is not total: on `a in (1)` the reads
`Split(field, "(")[1]` and `Split(.., ")")[0]` are in range, and the write
`values[0]` is out of range for the slice of length 0. -/
theorem compileLabelFilters_not_total :
    index (Split "a in (1)".toList "(".toList) 1 = .ok "1)".toList ∧
      index (Split "1)".toList ")".toList) 0 = .ok "1".toList ∧
      setIndex (make 0 1) 0 (TrimSpace "1".toList) = .error (.indexOutOfRange 0 0) ∧
      compileLabelFilters "a in (1)".toList = .error (.indexOutOfRange 0 0) :=
  ⟨rfl, rfl, rfl, rfl⟩

end OnosCli
